import Mathlib

/-!
Verification of the StackLizard JavaScript driver (src/drivers/javascript.js)
against its natural-language specification.

The driver state is embedded as a Lean structure whose fields mirror the
fields of the JSDriver object.  AST nodes live in an arena indexed by
natural-number node ids (node identity in JS becomes id equality here);
scopes likewise.  WeakMap fields become functions NodeId -> Option _,
Map fields with string keys become insertion-ordered association lists,
and Set fields become lists queried by contains.  Fallible operations
return Except JSError.  Recursion that in JS is bounded by the call stack
(getNodeName) or by the scope tree (the lexical-reachability walk) is
given explicit fuel; theorems quantify over or instantiate the fuel.
-/

/-- Node ids: stable indices into the AST arena. -/
abbrev NodeId := Nat

/-- Scope ids: stable indices into the scope arena. -/
abbrev ScopeId := Nat

/-- Errors surfaced by the driver.  JS throws Error objects; we tag the
distinct failure shapes.  typeError models a TypeError thrown by calling a
missing method; ioError models a rejected fs.readFile; stackOverflow models
exhaustion of the JS call stack; outOfFuel is the artificial bound on the
worklist loop, never reached for adequate fuel by the termination result. -/
inductive JSError where
  | typeError (msg : String)
  | unknownNodeType (msg : String)
  | ioError (path : String)
  | pathEscape
  | stackOverflow
  | outOfFuel
deriving DecidableEq, Repr

/-- An AST node.  Only the fields the driver reads are modelled; child
references are node ids into the arena.  The field names follow ESPree:
type, id, name, raw, callee, property, key, elements, properties, async,
plus the file/line/column attached by the line-mapping pass. -/
structure Node where
  type : String
  file : String := ""
  line : Int := 0
  column : Nat := 0
  id : Option NodeId := none
  name : String := ""
  raw : String := ""
  callee : Option NodeId := none
  property : Option NodeId := none
  key : Option NodeId := none
  elements : List NodeId := []
  properties : List NodeId := []
  async : Bool := false
deriving Repr

/-- An entry of the lineMapping list of the driver. -/
structure LineMapEntry where
  startSourceLine : Nat
  pathToFile : String
  firstLineInFile : Int
  endSourceLine : Nat
deriving DecidableEq, Repr

/-- The JSDriver state.  Fields mirror the constructor of JSDriver.
defaults give the freshly-constructed driver. -/
structure JSDriver where
  rootDir : String := ""
  sources : List String := []
  parsingBuffer : List String := []
  lineMapping : List LineMapEntry := []
  nodes : NodeId → Option Node := fun _ => none
  nodeToScope : NodeId → Option ScopeId := fun _ => none
  scopeUpper : ScopeId → Option ScopeId := fun _ => none
  callsByName : List (String × List NodeId) := []
  referencesByName : List (String × List NodeId) := []
  accessorNodes : List NodeId := []
  memberNodesInScope : NodeId → Option (List NodeId) := fun _ => none
  nodeToEnclosingFunction : NodeId → Option NodeId := fun _ => none
  valueNodeToKeyNode : NodeId → Option NodeId := fun _ => none
  nodeToConstructorFunction : NodeId → Option NodeId := fun _ => none
  ignoredNodes : List NodeId := []
  nodesInAwaitCall : List NodeId := []

/-- Does the character list cs start with the character list ps? -/
def startsWithChars : List Char → List Char → Bool
  | _, [] => true
  | [], _ :: _ => false
  | c :: cs, p :: ps => c == p && startsWithChars cs ps

/-- Does the character list contain the pattern as a contiguous run? -/
def hasSubChars : List Char → List Char → Bool
  | [], pat => pat.isEmpty
  | c :: cs, pat => startsWithChars (c :: cs) pat || hasSubChars cs pat

/-- JS String.prototype.includes. -/
def strIncludes (s pat : String) : Bool := hasSubChars s.toList pat.toList

/-- JS String.prototype.startsWith. -/
def strStartsWith (s pat : String) : Bool := startsWithChars s.toList pat.toList

/-- node.type.includes("Function"): the test of the driver for
function-like nodes. -/
def isFunctionNode (node : Node) : Bool := strIncludes node.type "Function"

/-- Split a character list at every occurrence of sep; models
String.prototype.split with a single-character separator.  Always returns
at least one piece. -/
def splitByChar (sep : Char) : List Char → List (List Char)
  | [] => [[]]
  | c :: rest =>
    match splitByChar sep rest with
    | [] => [[c]]
    | h :: t => if c == sep then [] :: h :: t else (c :: h) :: t

/-- JS s.split(sep) for a one-character separator. -/
def strSplitByChar (sep : Char) (s : String) : List String :=
  (splitByChar sep s.toList).map String.mk

/-- Insertion-ordered Map lookup (Map.prototype.get). -/
def mapGet (m : List (String × List NodeId)) (k : String) : Option (List NodeId) :=
  match m with
  | [] => none
  | (k2, v) :: rest => if k2 == k then some v else mapGet rest k

/-- Insertion-ordered Map update (Map.prototype.set): replaces the value in
place if the key is present, otherwise appends. -/
def mapSet (m : List (String × List NodeId)) (k : String) (v : List NodeId) :
    List (String × List NodeId) :=
  match m with
  | [] => [(k, v)]
  | (k2, v2) :: rest => if k2 == k then (k, v) :: rest else (k2, v2) :: mapSet rest k v

/-- fileAndLine from the driver: node.file + ":" + node.line. -/
def fileAndLine (node : Node) : String := node.file ++ ":" ++ toString node.line

/-- The string produced by the template `${this.getNodeName}` in the
BinaryExpression arm of getNodeName: JS stringifies the getNodeName
function object itself, yielding its source text.  The exact characters
are irrelevant to every property below; what matters is that a string is
returned rather than an error being thrown. -/
def getNodeNameSourceText : String :=
  "function (node) \x7b ... \x7d"

/-- Run f over a list, collecting results, propagating the first error;
models Array.prototype.map inside a template literal where each element
call may throw. -/
def getNodeNameList (f : NodeId → Except JSError String) :
    List NodeId → Except JSError (List String)
  | [] => .ok []
  | n :: rest =>
    match f n with
    | .error e => .error e
    | .ok s =>
      match getNodeNameList f rest with
      | .error e => .error e
      | .ok tail => .ok (s :: tail)

/-- getNodeName from the driver.  The fuel argument models the JS call
stack: each recursive step consumes one unit, and exhaustion corresponds
to a stack overflow (unreachable for actual ASTs at adequate fuel).
The dispatch follows the source exactly, including the BinaryExpression
arm, which returns the template-stringified function instead of
throwing. -/
def getNodeName (st : JSDriver) : Nat → NodeId → Except JSError String
  | 0, _ => .error .stackOverflow
  | fuel + 1, nid =>
    match st.valueNodeToKeyNode nid with
    | some keyNode => getNodeName st fuel keyNode
    | none =>
      match st.nodes nid with
      | none => .error (.typeError "undefined node")
      | some node =>
        if isFunctionNode node then
          match node.id with
          | some idNode => getNodeName st fuel idNode
          | none => .ok "(lambda)"
        else
          match node.type with
          | "ArrayPattern" =>
            match getNodeNameList (getNodeName st fuel) node.elements with
            | .error e => .error e
            | .ok names => .ok ("[ " ++ String.intercalate "," names ++ " ]")
          | "BinaryExpression" => .ok getNodeNameSourceText
          | "CallExpression" =>
            match node.callee with
            | some c => getNodeName st fuel c
            | none => .error (.typeError "undefined node")
          | "Identifier" => .ok node.name
          | "Literal" => .ok node.raw
          | "MemberExpression" =>
            match node.property with
            | some p => getNodeName st fuel p
            | none => .error (.typeError "undefined node")
          | "NewExpression" =>
            match node.callee with
            | some c => getNodeName st fuel c
            | none => .error (.typeError "undefined node")
          | "ObjectPattern" =>
            match getNodeNameList (getNodeName st fuel) node.properties with
            | .error e => .error e
            | .ok names => .ok ("\x7b " ++ String.intercalate "," names ++ " \x7d")
          | "Property" =>
            match node.key with
            | some k => getNodeName st fuel k
            | none => .error (.typeError "undefined node")
          | "ThisExpression" => .ok "this"
          | "VariableDeclarator" =>
            match node.id with
            | some i => getNodeName st fuel i
            | none => .error (.typeError "undefined node")
          | _ =>
            .error (.unknownNodeType
              ("Unknown node type: " ++ node.type ++ " for " ++ fileAndLine node ++
                "@" ++ toString node.column))

instance exceptDecEq {ε α : Type} [DecidableEq ε] [DecidableEq α] :
    DecidableEq (Except ε α) := fun a b =>
  match a, b with
  | .ok x, .ok y =>
    if h : x = y then .isTrue (by rw [h])
    else .isFalse (by intro hh; cases hh; exact h rfl)
  | .error x, .error y =>
    if h : x = y then .isTrue (by rw [h])
    else .isFalse (by intro hh; cases hh; exact h rfl)
  | .ok _, .error _ => .isFalse (by intro hh; cases hh)
  | .error _, .ok _ => .isFalse (by intro hh; cases hh)

/-- node.async for an arena node, false for a missing node. -/
def jsAsyncFlag (st : JSDriver) (n : NodeId) : Bool :=
  match st.nodes n with
  | some nd => nd.async
  | none => false

/-- Walk the upper chain of a scope, fuel-bounded, looking for the target
scope; models the while loop of the filter in getAwaitNodes.  A missing
start scope (JS: awaitScope undefined) yields false at once. -/
def scopeChainFindFuel (st : JSDriver) : Nat → Option ScopeId → Option ScopeId → Bool
  | _, none, _ => false
  | 0, some _, _ => false
  | f + 1, some s, target =>
    (some s == target) || scopeChainFindFuel st f (st.scopeUpper s) target

/-- The lexical-reachability walk of getAwaitNodes.  Fuel s+1 suffices to
exhaust the upper chain of scope s whenever parents have strictly smaller
ids, which is how every arena here is laid out; the walk only answers true
when target really occurs on the chain, so soundness needs no such
hypothesis. -/
def scopeChainFind (st : JSDriver) (start target : Option ScopeId) : Bool :=
  match start with
  | none => false
  | some s => scopeChainFindFuel st (s + 1) (some s) target

/-- Iterate scope.upper k times from scope s. -/
def scopeUpperIter (st : JSDriver) : Nat → ScopeId → Option ScopeId
  | 0, s => some s
  | k + 1, s =>
    match st.scopeUpper s with
    | none => none
    | some t => scopeUpperIter st k t

/-- The predicate of the final filter in getAwaitNodes: a candidate is kept
iff it is not already inside an await expression and the seed scope occurs
on its scope chain.  A candidate that is JS undefined (arising from
concat(undefined) when referencesByName has no entry) has no scope and is
dropped. -/
def awaitFilterKeep (st : JSDriver) (asyncScope : Option ScopeId) (c : Option NodeId) : Bool :=
  match c with
  | none => false
  | some n =>
    if st.nodesInAwaitCall.contains n then false
    else scopeChainFind st (st.nodeToScope n) asyncScope

/-- The memberNodes.forEach of getAwaitNodes: keep the member nodes whose
name equals asyncName, in order, propagating getNodeName errors. -/
def collectMatchingMembers (st : JSDriver) (nf : Nat) (asyncName : String) :
    List NodeId → Except JSError (List NodeId)
  | [] => .ok []
  | n :: rest =>
    match getNodeName st nf n with
    | .error e => .error e
    | .ok nm =>
      match collectMatchingMembers st nf asyncName rest with
      | .error e => .error e
      | .ok tail => if nm == asyncName then .ok (n :: tail) else .ok tail

/-- The member nodes of the constructor associated with a function, empty
when there is no association or the constructor read no this-members. -/
def memberNodesOf (st : JSDriver) (asyncNode : NodeId) : List NodeId :=
  match st.nodeToConstructorFunction asyncNode with
  | none => []
  | some ctorNode => (st.memberNodesInScope ctorNode).getD []

/-- The initial maybeAwaitNodes array: the stored calls list, or a fresh
empty array when the map has no entry. -/
def callCandidates (stored : Option (List NodeId)) : List (Option NodeId) :=
  (stored.getD []).map some

/-- What concat appends on the accessor branch: the stored references
list, or — when referencesByName has no entry, so get returns undefined —
the single element undefined that concat(undefined) appends. -/
def refCandidates (st : JSDriver) (asyncName : String) : List (Option NodeId) :=
  match mapGet st.referencesByName asyncName with
  | some l => l.map some
  | none => [none]

/-- getAwaitNodes from the driver.  Returns the filtered candidate list and
the driver state after the call.  The state matters: maybeAwaitNodes starts
as the array stored in callsByName (an alias, not a copy) unless the
accessor branch ran concat (which copies) or the map had no entry (fresh
array); the constructor-member forEach then pushes matching members into
that array, so in the aliased case the stored calls list itself grows.
Candidates are Option NodeId: none is the JS undefined element appended by
concat(undefined) when referencesByName has no entry for the name. -/
def getAwaitNodes (st : JSDriver) (nf : Nat) (asyncNode : NodeId) :
    Except JSError (List (Option NodeId) × JSDriver) :=
  match getNodeName st nf asyncNode with
  | .error e => .error e
  | .ok asyncName =>
    match collectMatchingMembers st nf asyncName (memberNodesOf st asyncNode) with
    | .error e => .error e
    | .ok matched =>
      let stored := mapGet st.callsByName asyncName
      let isAcc := st.accessorNodes.contains asyncNode
      let withRefs : List (Option NodeId) :=
        if isAcc then callCandidates stored ++ refCandidates st asyncName
        else callCandidates stored
      let st2 :=
        if stored.isSome && !isAcc then
          { st with callsByName := mapSet st.callsByName asyncName (stored.getD [] ++ matched) }
        else st
      .ok ((withRefs ++ matched.map some).filter
            (awaitFilterKeep st (st.nodeToScope asyncNode)), st2)

/-- An edge of the AsyncMap.  awaitNode is none exactly when the field is
absent (the sentinel root edge) or holds JS undefined; asyncNode
distinguishes the field being absent (none), being null (some none,
meaning the enclosing function is already async in source), and naming a
function (some (some f)). -/
structure Edge where
  awaitNode : Option NodeId := none
  asyncNode : Option (Option NodeId) := none
deriving DecidableEq, Repr

/-- The asyncReferences Map: insertion-ordered; the key none is the JS null
sentinel root. -/
abbrev AsyncMap := List (Option NodeId × List Edge)

/-- ignoredNodes.has applied to a candidate; Set.prototype.has on JS
undefined is false. -/
def awaitNodeIgnored (st : JSDriver) : Option NodeId → Bool
  | some a => st.ignoredNodes.contains a
  | none => false

/-- nodeToEnclosingFunction.get applied to a candidate; WeakMap.get on JS
undefined is undefined. -/
def awaitNodeEncl (st : JSDriver) : Option NodeId → Option NodeId
  | some a => st.nodeToEnclosingFunction a
  | none => none

/-- The awaitNodes.forEach body of getAsyncStacks: builds the references
list for the current async node, pushes newly scheduled enclosing
functions, and returns (references, pushed, scheduled after). -/
def processAwaitNodes (st : JSDriver) : List (Option NodeId) → List NodeId →
    (List Edge × List NodeId × List NodeId)
  | [], scheduled => ([], [], scheduled)
  | awaitNode :: rest, scheduled =>
    if awaitNodeIgnored st awaitNode then
      processAwaitNodes st rest scheduled
    else
      match awaitNodeEncl st awaitNode with
      | none =>
        let r := processAwaitNodes st rest scheduled
        ({ awaitNode := awaitNode } :: r.1, r.2.1, r.2.2)
      | some na =>
        if st.ignoredNodes.contains na then
          let r := processAwaitNodes st rest scheduled
          ({ awaitNode := awaitNode } :: r.1, r.2.1, r.2.2)
        else
          let edge : Edge := { awaitNode := awaitNode,
                               asyncNode := some (if jsAsyncFlag st na then none else some na) }
          if scheduled.contains na then
            let r := processAwaitNodes st rest scheduled
            (edge :: r.1, r.2.1, r.2.2)
          else
            let r := processAwaitNodes st rest (scheduled ++ [na])
            (edge :: r.1, na :: r.2.1, r.2.2)

/-- The main worklist loop of getAsyncStacks.  pending is the unprocessed
tail of markedAsyncNodes, scheduled is scheduledAsyncNodes, acc is
asyncReferences so far.  The fuel bounds the number of iterations; the
termination theorem shows fuel equal to the number of function nodes
suffices, so outOfFuel is unreachable there. -/
def getAsyncStacksLoop (nf : Nat) :
    JSDriver → Nat → List NodeId → List NodeId → AsyncMap →
    Except JSError (AsyncMap × List NodeId × JSDriver)
  | st, _, [], scheduled, acc => .ok (acc, scheduled, st)
  | _, 0, _ :: _, _, _ => .error .outOfFuel
  | st, fuel + 1, asyncNode :: rest, scheduled, acc =>
    if st.ignoredNodes.contains asyncNode then
      getAsyncStacksLoop nf st fuel rest scheduled acc
    else
      match getAwaitNodes st nf asyncNode with
      | .error e => .error e
      | .ok (awaitNodes, st1) =>
        if awaitNodes.isEmpty then
          getAsyncStacksLoop nf st1 fuel rest scheduled acc
        else
          let r := processAwaitNodes st1 awaitNodes scheduled
          getAsyncStacksLoop nf st1 fuel (rest ++ r.2.1) r.2.2
            (acc ++ [(some asyncNode, r.1)])

/-- getAsyncStacks, instrumented: also returns the final scheduled set and
the final driver state (the driver state can change, see getAwaitNodes). -/
def getAsyncStacksFull (st : JSDriver) (nf lf : Nat) (functionNode : NodeId) :
    Except JSError (AsyncMap × List NodeId × JSDriver) :=
  getAsyncStacksLoop nf st lf [functionNode] [functionNode]
    [(none, [{ awaitNode := none, asyncNode := some (some functionNode) }])]

/-- getAsyncStacks as the driver exposes it: the AsyncMap, plus the driver
state after the call. -/
def getAsyncStacks (st : JSDriver) (nf lf : Nat) (functionNode : NodeId) :
    Except JSError (AsyncMap × JSDriver) :=
  (getAsyncStacksFull st nf lf functionNode).map (fun r => (r.1, r.2.2))

/-- appendSource from the driver: split the source on newlines, extend the
parsing buffer, and push a lineMapping entry.  The source performs no
validation of firstLineInFile or of the text (and the HTML driver relies
on that, passing firstLine 0 for synthetic event-handler fragments). -/
def appendSource (st : JSDriver) (pathToFile : String) (firstLineInFile : Int)
    (source : String) : JSDriver :=
  let startSourceLine := st.parsingBuffer.length + 1
  let addedLines := strSplitByChar '\n' source
  { st with
    parsingBuffer := st.parsingBuffer ++ addedLines,
    lineMapping := st.lineMapping ++
      [{ startSourceLine := startSourceLine,
         pathToFile := pathToFile,
         firstLineInFile := firstLineInFile,
         endSourceLine := startSourceLine + addedLines.length }] }

/-- Resolve relative path segments against an absolute root; models the
path.resolve(root, rel) of Node for an absolute root: "." and empty segments are
dropped and ".." pops, with no containment check of the result. -/
def normalizeSegments : List String → List String → List String
  | stack, [] => stack.reverse
  | stack, seg :: rest =>
    if seg == "" || seg == "." then normalizeSegments stack rest
    else if seg == ".." then normalizeSegments (stack.drop 1) rest
    else normalizeSegments (seg :: stack) rest

/-- path.resolve(rootDir, pathToFile) for an absolute rootDir. -/
def pathResolve (root rel : String) : String :=
  let segs :=
    if strStartsWith rel "/" then strSplitByChar '/' rel
    else strSplitByChar '/' root ++ strSplitByChar '/' rel
  "/" ++ String.intercalate "/" (normalizeSegments [] segs)

/-- appendJSFile from the driver.  The filesystem is a finite map from
absolute paths to contents; a missing file models a rejected fs.readFile
(the Io failure).  When the path is already registered the source executes
return this.sources.get(pathToFile) — but this.sources is a Set, which has
no get method, so the call throws a TypeError. -/
def appendJSFile (fsys : String → Option String) (st : JSDriver) (pathToFile : String) :
    Except JSError JSDriver :=
  if st.sources.contains pathToFile then
    .error (.typeError "this.sources.get is not a function")
  else
    let fullPath := pathResolve st.rootDir pathToFile
    match fsys fullPath with
    | none => .error (.ioError fullPath)
    | some source =>
      let st1 := appendSource st pathToFile 1 source
      .ok { st1 with sources := st1.sources ++ [pathToFile] }

/-- Arena for the aliasing scenario: function b (node 1, named by node 2)
is the seed; node 3 is a call b() (callee node 4); node 5 is a constructor
function A (named by node 7) whose body contains this.b, whose property
identifier is node 6; all nodes sit in the program scope 0. -/
def aliasNodes : NodeId → Option Node
  | 1 => some { type := "FunctionDeclaration", id := some 2 }
  | 2 => some { type := "Identifier", name := "b" }
  | 3 => some { type := "CallExpression", callee := some 4 }
  | 4 => some { type := "Identifier", name := "b" }
  | 5 => some { type := "FunctionDeclaration", id := some 7 }
  | 6 => some { type := "Identifier", name := "b" }
  | 7 => some { type := "Identifier", name := "A" }
  | _ => none

/-- Parsed state for the aliasing scenario: calls["b"] = [3], the seed is
associated to constructor 5, and the constructor reads this.b (node 6). -/
def aliasEngine : JSDriver := {
  nodes := aliasNodes,
  nodeToScope := fun n => if n ≤ 7 then some 0 else none,
  callsByName := [("b", [3])],
  nodeToConstructorFunction := fun n => if n == 1 then some 5 else none,
  memberNodesInScope := fun n => if n == 5 then some [6] else none }

/-- Filesystem for the re-append scenario: one file under the root. -/
def reappendFs : String → Option String
  | "/root/proj/a.js" => some "x"
  | _ => none

/-- Driver for the re-append scenario. -/
def reappendDriver : JSDriver := { rootDir := "/root/proj" }

/-- Filesystem for the escape scenario: the only file lies outside the
configured root. -/
def escapeFs : String → Option String
  | "/root/outside.js" => some "y"
  | _ => none

/-- Driver for the escape scenario. -/
def escapeDriver : JSDriver := { rootDir := "/root/proj" }

/-- Arena for the unknown-kind scenario: node 1 is a BinaryExpression
(a + b), node 2 an IfStatement. -/
def unknownKindNodes : NodeId → Option Node
  | 1 => some { type := "BinaryExpression", file := "f.js", line := 3 }
  | 2 => some { type := "IfStatement", file := "f.js", line := 4, column := 2 }
  | _ => none

/-- Parsed state for the unknown-kind scenario. -/
def unknownKindEngine : JSDriver := { nodes := unknownKindNodes }

/-- Arena for the ignored-seed scenario. -/
def ignoredSeedEngine : JSDriver := {
  nodes := aliasNodes,
  ignoredNodes := [1] }

/-- Two driver states agree on every field except possibly callsByName —
the only field getAwaitNodes can change. -/
def SameExceptCalls (a b : JSDriver) : Prop :=
  b = { a with callsByName := b.callsByName }

/-- The indexing invariant of a name-keyed reference map: every node
stored under a key has that key as its name. -/
def NamesInv (st0 : JSDriver) (nf : Nat) (m : List (String × List NodeId)) : Prop :=
  ∀ kv ∈ m, ∀ x ∈ kv.2, getNodeName st0 nf x = .ok kv.1

/-- No entry of the map other than the sentinel root mentions node n,
neither as a key, nor as the awaitNode of an edge, nor as the asyncNode
of an edge. -/
def NoIgnoredMention (n : NodeId) (m : AsyncMap) : Prop :=
  ∀ k edges, (k, edges) ∈ m → k ≠ (none : Option NodeId) →
    k ≠ some n ∧ ∀ e ∈ edges, e.awaitNode ≠ some n ∧ e.asyncNode ≠ some (some n)

/-- Every edge of the map whose await site has a non-ignored enclosing
function p records asyncNode = null when p is already async in source and
asyncNode = p otherwise, and p is in the scheduled set. -/
def EdgeSchedOK (st0 : JSDriver) (m : AsyncMap) (sched : List NodeId) : Prop :=
  ∀ g edges, (some g, edges) ∈ m → ∀ e ∈ edges, ∀ a p,
    e.awaitNode = some a → st0.nodeToEnclosingFunction a = some p →
    st0.ignoredNodes.contains p = false →
    e.asyncNode = some (if jsAsyncFlag st0 p then none else some p) ∧ p ∈ sched

/-- Every edge of every non-root entry f of the map has a present await
node whose name equals the name of f, which is not already inside an await
expression, and whose scope has the scope of f as a reflexive ancestor. -/
def GoodEdges (st0 : JSDriver) (nf : Nat) (m : AsyncMap) : Prop :=
  ∀ f edges, (some f, edges) ∈ m → ∀ e ∈ edges, ∃ a,
    e.awaitNode = some a ∧
    (∃ nm, getNodeName st0 nf a = .ok nm ∧ getNodeName st0 nf f = .ok nm) ∧
    st0.nodesInAwaitCall.contains a = false ∧
    ∃ sa sf, st0.nodeToScope a = some sa ∧ st0.nodeToScope f = some sf ∧
      ∃ k, scopeUpperIter st0 k sa = some sf

/-- Arena for the propagation scenario: function b (node 1, named by 2) is
the seed; node 3 is a call b() (callee 4) enclosed by function a (node 10,
named by 11); node 20 is a top-level call a() (callee 21); node 30 is
another call b() (callee 31) that will be marked ignored. -/
def propNodes : NodeId → Option Node
  | 1 => some { type := "FunctionDeclaration", id := some 2 }
  | 2 => some { type := "Identifier", name := "b" }
  | 3 => some { type := "CallExpression", callee := some 4 }
  | 4 => some { type := "Identifier", name := "b" }
  | 10 => some { type := "FunctionDeclaration", id := some 11 }
  | 11 => some { type := "Identifier", name := "a" }
  | 20 => some { type := "CallExpression", callee := some 21 }
  | 21 => some { type := "Identifier", name := "a" }
  | 30 => some { type := "CallExpression", callee := some 31 }
  | 31 => some { type := "Identifier", name := "b" }
  | _ => none

/-- Parsed state for the propagation scenario: calls["b"] = [3, 30],
calls["a"] = [20], node 3 is enclosed by function 10, node 30 is
ignored, and every node sits in the program scope 0. -/
def propEngine : JSDriver := {
  nodes := propNodes,
  nodeToScope := fun n => if n ≤ 31 then some 0 else none,
  callsByName := [("b", [3, 30]), ("a", [20])],
  nodeToEnclosingFunction := fun n => if n = 3 then some 10 else none,
  ignoredNodes := [30] }

/-- The AsyncMap computed for the propagation scenario. -/
def propMap : AsyncMap :=
  [(none, [{ awaitNode := none, asyncNode := some (some 1) }]),
   (some 1, [{ awaitNode := some 3, asyncNode := some (some 10) }]),
   (some 10, [{ awaitNode := some 20, asyncNode := none }])]

/-- Claim C1.  The claim asserts that two getAsyncStacks runs on the same
parsed engine yield identical AsyncMaps, and in particular that the
constructor-member step of getAwaitNodes does not change the stored
calls[name] lists.  The code violates this: maybeAwaitNodes aliases the
stored callsByName array (no copy is taken on the non-accessor path), so
the member push of the first run grows calls["b"] from [3] to [3, 6], and
the second run both sees the pushed member and pushes it again, yielding a
duplicated member edge.  This theorem evaluates both runs on the aliasing
scenario and shows the two AsyncMaps differ. -/
theorem getAsyncStacks_not_idempotent_on_aliasEngine :
    ∃ st1 st2,
      getAsyncStacks aliasEngine 5 5 1 =
        .ok ([(none, [{ awaitNode := none, asyncNode := some (some 1) }]),
              (some 1, [{ awaitNode := some 3, asyncNode := none },
                        { awaitNode := some 6, asyncNode := none }])], st1) ∧
      getAsyncStacks st1 5 5 1 =
        .ok ([(none, [{ awaitNode := none, asyncNode := some (some 1) }]),
              (some 1, [{ awaitNode := some 3, asyncNode := none },
                        { awaitNode := some 6, asyncNode := none },
                        { awaitNode := some 6, asyncNode := none }])], st2) ∧
      ([(none, [({ awaitNode := none, asyncNode := some (some 1) } : Edge)]),
        (some 1, [{ awaitNode := some 3, asyncNode := none },
                  { awaitNode := some 6, asyncNode := none }])] : AsyncMap) ≠
      [(none, [{ awaitNode := none, asyncNode := some (some 1) }]),
       (some 1, [{ awaitNode := some 3, asyncNode := none },
                 { awaitNode := some 6, asyncNode := none },
                 { awaitNode := some 6, asyncNode := none }])] :=
  ⟨_, _, rfl, rfl, by decide⟩

/-- Claim C5.  The claim says a second appendFile call for the same path is
a no-op returning the same handle and in particular does not fail.  In the
code the early-return path executes this.sources.get(pathToFile), but
this.sources is a Set and Set.prototype.get does not exist (earlier
revisions kept a Map here), so the second call throws a TypeError. -/
theorem appendJSFile_second_call_throws :
    ∃ st1, appendJSFile reappendFs reappendDriver "a.js" = .ok st1 ∧
      appendJSFile reappendFs st1 "a.js" =
        .error (.typeError "this.sources.get is not a function") :=
  ⟨_, rfl, rfl⟩

/-- Claim C6, counterexample.  The claim says appendSource fails with
InvalidInput when firstLine < 1 or the text is empty, leaving the buffer
and line map unchanged.  The code performs no validation: with firstLine 0
and empty text it succeeds, appends one empty buffer line, and records a
mapping entry. -/
theorem appendSource_accepts_firstLine_zero_and_empty :
    (appendSource {} "f.js" 0 "").parsingBuffer = [""] ∧
    (appendSource {} "f.js" 0 "").lineMapping =
      [{ startSourceLine := 1, pathToFile := "f.js",
         firstLineInFile := 0, endSourceLine := 2 }] :=
  ⟨rfl, rfl⟩

theorem splitByChar_ne_nil (sep : Char) (l : List Char) : splitByChar sep l ≠ [] := by
  cases l with
  | nil => simp [splitByChar]
  | cons c rest =>
    simp only [splitByChar]
    match splitByChar sep rest with
    | [] => simp
    | h :: t =>
      by_cases hc : c == sep <;> simp [hc]

theorem strSplitByChar_length_pos (sep : Char) (s : String) :
    0 < (strSplitByChar sep s).length := by
  unfold strSplitByChar
  rw [List.length_map, List.length_pos]
  exact splitByChar_ne_nil sep s.toList

/-- Claim C6, amended.  appendSource never fails: for every firstLine
(including values below 1) and every text (including the empty string) it
appends text.split on newline to the parsing buffer — so the buffer
strictly grows, by one empty line for empty text — records exactly one new
lineMapping entry spanning the added lines, and touches nothing else. -/
theorem appendSource_never_fails (st : JSDriver) (p : String) (fl : Int) (text : String) :
    (appendSource st p fl text).parsingBuffer =
      st.parsingBuffer ++ strSplitByChar '\n' text ∧
    (appendSource st p fl text).lineMapping = st.lineMapping ++
      [{ startSourceLine := st.parsingBuffer.length + 1,
         pathToFile := p,
         firstLineInFile := fl,
         endSourceLine := st.parsingBuffer.length + 1 + (strSplitByChar '\n' text).length }] ∧
    st.parsingBuffer.length < (appendSource st p fl text).parsingBuffer.length ∧
    (appendSource st p fl text).sources = st.sources := by
  refine ⟨rfl, rfl, ?_, rfl⟩
  simp only [appendSource, List.length_append]
  have := strSplitByChar_length_pos '\n' text
  omega

/-- Claim C7, counterexample.  The claim says appendFile fails with
PathEscape when the resolved file lies outside rootDir and that such a
file is never read.  The code resolves the path and reads it with no
containment check: ../outside.js resolves to /root/outside.js, which does
not lie under /root/proj, yet the call succeeds and the file contents
land in the parsing buffer. -/
theorem appendJSFile_reads_outside_root :
    strStartsWith (pathResolve "/root/proj" "../outside.js") "/root/proj" = false ∧
    ∃ st1, appendJSFile escapeFs escapeDriver "../outside.js" = .ok st1 ∧
      st1.parsingBuffer = ["y"] :=
  ⟨by decide, _, rfl, rfl⟩

/-- Claim C7, amended.  appendJSFile performs no root-containment check and
never produces a PathEscape failure; for an unregistered path the call
fails (with the Io failure of fs.readFile) exactly when the resolved file
is missing from the filesystem, regardless of whether the resolution lies
under rootDir. -/
theorem appendJSFile_never_pathEscape (fsys : String → Option String)
    (st : JSDriver) (p : String) :
    appendJSFile fsys st p ≠ .error .pathEscape ∧
    (st.sources.contains p = false →
      fsys (pathResolve st.rootDir p) = none →
      appendJSFile fsys st p = .error (.ioError (pathResolve st.rootDir p))) := by
  constructor
  · unfold appendJSFile
    by_cases hm : p ∈ st.sources
    · simp [hm]
    · rcases hres : fsys (pathResolve st.rootDir p) with _ | src <;> simp [hm, hres]
  · intro hs hf
    have hm : p ∉ st.sources := by
      intro hmem
      have h2 := List.elem_eq_true_of_mem hmem
      change List.elem p st.sources = false at hs
      rw [h2] at hs
      exact Bool.noConfusion hs
    unfold appendJSFile
    simp [hm, hf]

/-- Witness for the amended C7 theorem at a concrete input: an empty driver
and an empty filesystem give the Io failure, never PathEscape. -/
theorem appendJSFile_never_pathEscape_witness :
    (({} : JSDriver).sources.contains "x.js" = false) ∧
    ((fun _ => none : String → Option String) (pathResolve ({} : JSDriver).rootDir "x.js")
      = none) ∧
    appendJSFile (fun _ => none) {} "x.js" =
      .error (.ioError (pathResolve ({} : JSDriver).rootDir "x.js")) :=
  ⟨rfl, rfl, (appendJSFile_never_pathEscape (fun _ => none) {} "x.js").2 rfl rfl⟩

/-- Claim C8.  The claim says every node kind outside the dispatch set
raises InvalidInput rather than returning a guessed name.  BinaryExpression
is outside that set, and the doc comment of the function says it throws for
unknown node types; yet the BinaryExpression arm returns the
template-stringified getNodeName function itself as the name.  Kinds
missing from the switch entirely (IfStatement here) do throw as claimed. -/
theorem getNodeName_binaryExpression_returns_string :
    getNodeName unknownKindEngine 5 1 = .ok getNodeNameSourceText ∧
    getNodeName unknownKindEngine 5 2 =
      .error (.unknownNodeType "Unknown node type: IfStatement for f.js:4@2") :=
  ⟨rfl, by decide⟩

/-- Claim C10.  If the seed itself is ignored, the first loop iteration
hits the ignoredNodes guard before getAwaitNodes is ever called, so the
returned map holds exactly the sentinel root entry, whose single edge
names the seed as asyncNode, and the driver state is unchanged. -/
theorem getAsyncStacks_ignored_seed (st : JSDriver) (nf lf : Nat) (seed : NodeId)
    (h : st.ignoredNodes.contains seed = true) :
    getAsyncStacks st nf (lf + 1) seed =
      .ok ([(none, [{ awaitNode := none, asyncNode := some (some seed) }])], st) := by
  have hm : seed ∈ st.ignoredNodes := List.mem_of_elem_eq_true h
  unfold getAsyncStacks getAsyncStacksFull
  rw [show getAsyncStacksLoop nf st (lf + 1) [seed] [seed]
        [(none, [{ awaitNode := none, asyncNode := some (some seed) }])] =
      getAsyncStacksLoop nf st lf [] [seed]
        [(none, [{ awaitNode := none, asyncNode := some (some seed) }])] by
    simp [getAsyncStacksLoop, hm]]
  simp [getAsyncStacksLoop, Except.map]

/-- Witness for C10 at a concrete input. -/
theorem getAsyncStacks_ignored_seed_witness :
    (ignoredSeedEngine.ignoredNodes.contains 1 = true) ∧
    getAsyncStacks ignoredSeedEngine 5 (4 + 1) 1 =
      .ok ([(none, [{ awaitNode := none, asyncNode := some (some 1) }])], ignoredSeedEngine) :=
  ⟨by decide, getAsyncStacks_ignored_seed ignoredSeedEngine 5 4 1 (by decide)⟩




theorem sameExceptCalls_refl (a : JSDriver) : SameExceptCalls a a := rfl

theorem sameExceptCalls_trans {a b c : JSDriver}
    (h1 : SameExceptCalls a b) (h2 : SameExceptCalls b c) : SameExceptCalls a c := by
  unfold SameExceptCalls at *
  conv_lhs => rw [h2]
  rw [h1]

theorem SameExceptCalls.fnodes {a b : JSDriver} (h : SameExceptCalls a b) :
    b.nodes = a.nodes := by rw [h]

theorem SameExceptCalls.fscope {a b : JSDriver} (h : SameExceptCalls a b) :
    b.nodeToScope = a.nodeToScope := by rw [h]

theorem SameExceptCalls.fupper {a b : JSDriver} (h : SameExceptCalls a b) :
    b.scopeUpper = a.scopeUpper := by rw [h]

theorem SameExceptCalls.frefs {a b : JSDriver} (h : SameExceptCalls a b) :
    b.referencesByName = a.referencesByName := by rw [h]

theorem SameExceptCalls.faccessors {a b : JSDriver} (h : SameExceptCalls a b) :
    b.accessorNodes = a.accessorNodes := by rw [h]

theorem SameExceptCalls.fmembers {a b : JSDriver} (h : SameExceptCalls a b) :
    b.memberNodesInScope = a.memberNodesInScope := by rw [h]

theorem SameExceptCalls.fencl {a b : JSDriver} (h : SameExceptCalls a b) :
    b.nodeToEnclosingFunction = a.nodeToEnclosingFunction := by rw [h]

theorem SameExceptCalls.fkeys {a b : JSDriver} (h : SameExceptCalls a b) :
    b.valueNodeToKeyNode = a.valueNodeToKeyNode := by rw [h]

theorem SameExceptCalls.fctor {a b : JSDriver} (h : SameExceptCalls a b) :
    b.nodeToConstructorFunction = a.nodeToConstructorFunction := by rw [h]

theorem SameExceptCalls.fignored {a b : JSDriver} (h : SameExceptCalls a b) :
    b.ignoredNodes = a.ignoredNodes := by rw [h]

theorem SameExceptCalls.fawait {a b : JSDriver} (h : SameExceptCalls a b) :
    b.nodesInAwaitCall = a.nodesInAwaitCall := by rw [h]

theorem loop_nil (nf : Nat) (st : JSDriver) (fuel : Nat) (sched : List NodeId)
    (acc : AsyncMap) :
    getAsyncStacksLoop nf st fuel [] sched acc = .ok (acc, sched, st) := by
  cases fuel <;> simp [getAsyncStacksLoop]

theorem loop_cons_ignored (nf : Nat) (st : JSDriver) (fuel : Nat) (g : NodeId)
    (rest : List NodeId) (sched : List NodeId) (acc : AsyncMap)
    (h : st.ignoredNodes.contains g = true) :
    getAsyncStacksLoop nf st (fuel + 1) (g :: rest) sched acc =
      getAsyncStacksLoop nf st fuel rest sched acc := by
  have hm : g ∈ st.ignoredNodes := List.mem_of_elem_eq_true h
  simp [getAsyncStacksLoop, hm]

theorem loop_cons_error (nf : Nat) (st : JSDriver) (fuel : Nat) (g : NodeId)
    (rest : List NodeId) (sched : List NodeId) (acc : AsyncMap) (e : JSError)
    (hg : st.ignoredNodes.contains g = false)
    (hga : getAwaitNodes st nf g = .error e) :
    getAsyncStacksLoop nf st (fuel + 1) (g :: rest) sched acc = .error e := by
  have hm : g ∉ st.ignoredNodes := by
    intro hmem
    have h2 := List.elem_eq_true_of_mem hmem
    change List.elem g st.ignoredNodes = false at hg
    rw [h2] at hg
    exact Bool.noConfusion hg
  simp [getAsyncStacksLoop, hm, hga]

theorem loop_cons_ok (nf : Nat) (st st1 : JSDriver) (fuel : Nat) (g : NodeId)
    (rest : List NodeId) (sched : List NodeId) (acc : AsyncMap)
    (l : List (Option NodeId))
    (hg : st.ignoredNodes.contains g = false)
    (hga : getAwaitNodes st nf g = .ok (l, st1)) :
    getAsyncStacksLoop nf st (fuel + 1) (g :: rest) sched acc =
      if l.isEmpty then getAsyncStacksLoop nf st1 fuel rest sched acc
      else
        getAsyncStacksLoop nf st1 fuel (rest ++ (processAwaitNodes st1 l sched).2.1)
          (processAwaitNodes st1 l sched).2.2
          (acc ++ [(some g, (processAwaitNodes st1 l sched).1)]) := by
  have hm : g ∉ st.ignoredNodes := by
    intro hmem
    have h2 := List.elem_eq_true_of_mem hmem
    change List.elem g st.ignoredNodes = false at hg
    rw [h2] at hg
    exact Bool.noConfusion hg
  cases l with
  | nil => simp [getAsyncStacksLoop, hm, hga]
  | cons c cs => simp [getAsyncStacksLoop, hm, hga]

theorem mapGet_mem {m : List (String × List NodeId)} {k : String} {v : List NodeId}
    (h : mapGet m k = some v) : (k, v) ∈ m := by
  induction m with
  | nil => simp [mapGet] at h
  | cons kv rest ih =>
    obtain ⟨k2, v2⟩ := kv
    unfold mapGet at h
    by_cases hk : k2 == k
    · rw [if_pos hk] at h
      obtain rfl : v2 = v := by injection h
      obtain rfl : k2 = k := by exact eq_of_beq hk
      exact List.mem_cons_self _ _
    · rw [if_neg hk] at h
      exact List.mem_cons_of_mem _ (ih h)

theorem mapSet_mem {m : List (String × List NodeId)} {k : String} {v : List NodeId}
    {kv : String × List NodeId} (h : kv ∈ mapSet m k v) : kv ∈ m ∨ kv = (k, v) := by
  induction m with
  | nil =>
    simp [mapSet] at h
    exact Or.inr h
  | cons kv2 rest ih =>
    obtain ⟨k2, v2⟩ := kv2
    unfold mapSet at h
    by_cases hk : k2 == k
    · rw [if_pos hk] at h
      rcases List.mem_cons.mp h with h1 | h1
      · exact Or.inr h1
      · exact Or.inl (List.mem_cons_of_mem _ h1)
    · rw [if_neg hk] at h
      rcases List.mem_cons.mp h with h1 | h1
      · exact Or.inl (h1 ▸ List.mem_cons_self _ _)
      · rcases ih h1 with h2 | h2
        · exact Or.inl (List.mem_cons_of_mem _ h2)
        · exact Or.inr h2

theorem scopeChainFindFuel_sound (st : JSDriver) :
    ∀ f os target, scopeChainFindFuel st f os target = true →
      ∃ s t, os = some s ∧ target = some t ∧ ∃ k, scopeUpperIter st k s = some t := by
  intro f
  induction f with
  | zero =>
    intro os target h
    cases os <;> simp [scopeChainFindFuel] at h
  | succ f ih =>
    intro os target h
    cases os with
    | none => simp [scopeChainFindFuel] at h
    | some s =>
      unfold scopeChainFindFuel at h
      rcases Bool.or_eq_true_iff.mp h with h1 | h1
      · have heq : (some s : Option ScopeId) = target := eq_of_beq h1
        exact ⟨s, s, rfl, heq.symm, 0, rfl⟩
      · obtain ⟨s2, t, hup, ht, k, hit⟩ := ih (st.scopeUpper s) target h1
        refine ⟨s, t, rfl, ht, k + 1, ?_⟩
        unfold scopeUpperIter
        rw [hup]
        exact hit

theorem scopeChainFind_sound (st : JSDriver) (start target : Option ScopeId)
    (h : scopeChainFind st start target = true) :
    ∃ s t, start = some s ∧ target = some t ∧ ∃ k, scopeUpperIter st k s = some t := by
  cases start with
  | none => simp [scopeChainFind] at h
  | some s =>
    unfold scopeChainFind at h
    obtain ⟨s2, t, hos, ht, k, hit⟩ := scopeChainFindFuel_sound st (s + 1) (some s) target h
    obtain rfl : s = s2 := Option.some.inj hos
    exact ⟨s, t, rfl, ht, k, hit⟩

theorem collectMatchingMembers_sound (st : JSDriver) (nf : Nat) (asyncName : String) :
    ∀ l ms, collectMatchingMembers st nf asyncName l = .ok ms →
      ∀ x ∈ ms, getNodeName st nf x = .ok asyncName := by
  intro l
  induction l with
  | nil =>
    intro ms h x hx
    obtain rfl : ([] : List NodeId) = ms := by
      unfold collectMatchingMembers at h
      injection h
    simp at hx
  | cons n rest ih =>
    intro ms h x hx
    unfold collectMatchingMembers at h
    cases hn : getNodeName st nf n with
    | error e => rw [hn] at h; exact absurd h (by simp)
    | ok nm =>
      rw [hn] at h
      cases hr : collectMatchingMembers st nf asyncName rest with
      | error e => rw [hr] at h; exact absurd h (by simp)
      | ok tail =>
        rw [hr] at h
        simp only [] at h
        by_cases hb : nm == asyncName
        · rw [if_pos hb] at h
          obtain rfl : n :: tail = ms := by injection h
          rcases List.mem_cons.mp hx with rfl | hx2
          · rw [hn]
            exact congrArg Except.ok (eq_of_beq hb)
          · exact ih tail hr x hx2
        · rw [if_neg hb] at h
          obtain rfl : tail = ms := by injection h
          exact ih tail hr x hx

theorem getNodeName_congr {a b : JSDriver} (h1 : b.nodes = a.nodes)
    (h2 : b.valueNodeToKeyNode = a.valueNodeToKeyNode) :
    ∀ fuel, getNodeName b fuel = getNodeName a fuel := by
  intro fuel
  induction fuel with
  | zero => rfl
  | succ fuel ih =>
    funext n
    unfold getNodeName
    rw [h1, h2, ih]

theorem scopeChainFindFuel_congr {a b : JSDriver} (h : b.scopeUpper = a.scopeUpper) :
    ∀ f os t, scopeChainFindFuel b f os t = scopeChainFindFuel a f os t := by
  intro f
  induction f with
  | zero => intro os t; cases os <;> rfl
  | succ f ih =>
    intro os t
    cases os with
    | none => rfl
    | some s =>
      unfold scopeChainFindFuel
      rw [h, ih]

theorem scopeChainFind_congr {a b : JSDriver} (h : b.scopeUpper = a.scopeUpper)
    (s t : Option ScopeId) : scopeChainFind b s t = scopeChainFind a s t := by
  cases s with
  | none => rfl
  | some s2 => exact scopeChainFindFuel_congr h (s2 + 1) (some s2) t

theorem scopeUpperIter_congr {a b : JSDriver} (h : b.scopeUpper = a.scopeUpper) :
    ∀ k, scopeUpperIter b k = scopeUpperIter a k := by
  intro k
  induction k with
  | zero => rfl
  | succ k ih =>
    funext s
    unfold scopeUpperIter
    rw [h, ih]

theorem awaitFilterKeep_congr {a b : JSDriver} (hS : SameExceptCalls a b) :
    awaitFilterKeep b = awaitFilterKeep a := by
  funext sc c
  cases c with
  | none => rfl
  | some n =>
    show (if b.nodesInAwaitCall.contains n then false
          else scopeChainFind b (b.nodeToScope n) sc) =
         (if a.nodesInAwaitCall.contains n then false
          else scopeChainFind a (a.nodeToScope n) sc)
    rw [hS.fawait, hS.fscope, scopeChainFind_congr hS.fupper]

theorem collectMatchingMembers_congr {a b : JSDriver} {nf : Nat}
    (hg : getNodeName b nf = getNodeName a nf) (nm : String) :
    ∀ l, collectMatchingMembers b nf nm l = collectMatchingMembers a nf nm l := by
  intro l
  induction l with
  | nil => rfl
  | cons n rest ih =>
    unfold collectMatchingMembers
    rw [hg, ih]

theorem memberNodesOf_congr {a b : JSDriver} (hS : SameExceptCalls a b) :
    memberNodesOf b = memberNodesOf a := by
  funext n
  unfold memberNodesOf
  rw [hS.fctor, hS.fmembers]

theorem jsAsyncFlag_congr {a b : JSDriver} (hS : SameExceptCalls a b) :
    jsAsyncFlag b = jsAsyncFlag a := by
  funext n
  unfold jsAsyncFlag
  rw [hS.fnodes]

theorem refCandidates_congr {a b : JSDriver} (hS : SameExceptCalls a b) :
    refCandidates b = refCandidates a := by
  funext nm
  unfold refCandidates
  rw [hS.frefs]

theorem getAwaitNodes_inv {st st2 : JSDriver} {nf : Nat} {g : NodeId}
    {l : List (Option NodeId)} (h : getAwaitNodes st nf g = .ok (l, st2)) :
    ∃ asyncName matched,
      getNodeName st nf g = .ok asyncName ∧
      collectMatchingMembers st nf asyncName (memberNodesOf st g) = .ok matched ∧
      l = ((if st.accessorNodes.contains g then
              callCandidates (mapGet st.callsByName asyncName) ++ refCandidates st asyncName
            else callCandidates (mapGet st.callsByName asyncName)) ++
           matched.map some).filter (awaitFilterKeep st (st.nodeToScope g)) ∧
      st2 = (if (mapGet st.callsByName asyncName).isSome && !(st.accessorNodes.contains g)
             then { st with callsByName := mapSet st.callsByName asyncName ((mapGet st.callsByName asyncName).getD [] ++ matched) }
             else st) := by
  unfold getAwaitNodes at h
  cases hn : getNodeName st nf g with
  | error e =>
    rw [hn] at h
    simp only [] at h
    exact Except.noConfusion h
  | ok asyncName =>
    rw [hn] at h
    simp only [] at h
    cases hcm : collectMatchingMembers st nf asyncName (memberNodesOf st g) with
    | error e =>
      rw [hcm] at h
      simp only [] at h
      exact Except.noConfusion h
    | ok matched =>
      rw [hcm] at h
      simp only [] at h
      injection h with hpair
      have h1 := congrArg Prod.fst hpair
      have h2 := congrArg Prod.snd hpair
      simp only [] at h1 h2
      exact ⟨asyncName, matched, rfl, hcm, h1.symm, h2.symm⟩

theorem getAwaitNodes_state {st st2 : JSDriver} {nf : Nat} {g : NodeId}
    {l : List (Option NodeId)} (h : getAwaitNodes st nf g = .ok (l, st2)) :
    SameExceptCalls st st2 := by
  obtain ⟨an, mt, _, _, _, hst⟩ := getAwaitNodes_inv h
  rw [hst]
  by_cases hcond : ((mapGet st.callsByName an).isSome && !(st.accessorNodes.contains g)) = true
  · rw [if_pos hcond]
    rfl
  · rw [if_neg hcond]
    exact sameExceptCalls_refl st

theorem callCandidates_mem {stored : Option (List NodeId)} {a : NodeId}
    (h : some a ∈ callCandidates stored) : ∃ s0, stored = some s0 ∧ a ∈ s0 := by
  cases stored with
  | none => simp [callCandidates] at h
  | some s0 =>
    refine ⟨s0, rfl, ?_⟩
    simp [callCandidates] at h
    exact h

theorem getAwaitNodes_preserves_names {st0 st st2 : JSDriver} {nf : Nat} {g : NodeId}
    {l : List (Option NodeId)}
    (hS : SameExceptCalls st0 st)
    (hc : NamesInv st0 nf st.callsByName)
    (h : getAwaitNodes st nf g = .ok (l, st2)) :
    NamesInv st0 nf st2.callsByName := by
  obtain ⟨an, mt, hn, hcm, _, hst⟩ := getAwaitNodes_inv h
  have hgw : getNodeName st nf = getNodeName st0 nf :=
    getNodeName_congr hS.fnodes hS.fkeys nf
  rw [hst]
  by_cases hcond : ((mapGet st.callsByName an).isSome && !(st.accessorNodes.contains g)) = true
  · rw [if_pos hcond]
    intro kv hkv x hx
    have hkv2 : kv ∈ mapSet st.callsByName an ((mapGet st.callsByName an).getD [] ++ mt) := hkv
    rcases mapSet_mem hkv2 with hold | hnew
    · exact hc kv hold x hx
    · rw [hnew] at hx
      rw [hnew]
      rcases List.mem_append.mp hx with hx1 | hx2
      · have hsome : (mapGet st.callsByName an).isSome = true :=
          (Bool.and_eq_true_iff.mp hcond).1
        obtain ⟨s0, hs0⟩ := Option.isSome_iff_exists.mp hsome
        rw [hs0] at hx1
        have hmem : (an, s0) ∈ st.callsByName := mapGet_mem hs0
        exact hc (an, s0) hmem x hx1
      · have := collectMatchingMembers_sound st nf an (memberNodesOf st g) mt hcm x hx2
        rw [hgw] at this
        exact this
  · rw [if_neg hcond]
    exact hc

theorem getAwaitNodes_sound {st0 st st2 : JSDriver} {nf : Nat} {g : NodeId}
    {l : List (Option NodeId)}
    (hS : SameExceptCalls st0 st)
    (hc : NamesInv st0 nf st.callsByName)
    (hr : NamesInv st0 nf st0.referencesByName)
    (h : getAwaitNodes st nf g = .ok (l, st2)) :
    ∀ c ∈ l, ∃ a,
      c = some a ∧
      (∃ nm, getNodeName st0 nf a = .ok nm ∧ getNodeName st0 nf g = .ok nm) ∧
      st0.nodesInAwaitCall.contains a = false ∧
      ∃ sa sf, st0.nodeToScope a = some sa ∧ st0.nodeToScope g = some sf ∧
        ∃ k, scopeUpperIter st0 k sa = some sf := by
  obtain ⟨an, mt, hn, hcm, hl, _⟩ := getAwaitNodes_inv h
  have hgw : getNodeName st nf = getNodeName st0 nf :=
    getNodeName_congr hS.fnodes hS.fkeys nf
  intro c hcl
  rw [hl] at hcl
  rw [List.mem_filter] at hcl
  obtain ⟨hmem, hkeep⟩ := hcl
  cases c with
  | none => simp [awaitFilterKeep] at hkeep
  | some a =>
    refine ⟨a, rfl, ?_, ?_, ?_⟩
    · refine ⟨an, ?_, ?_⟩
      · rcases List.mem_append.mp hmem with hm1 | hm2
        · by_cases hacc : (st.accessorNodes.contains g) = true
          · rw [if_pos hacc] at hm1
            rcases List.mem_append.mp hm1 with hm3 | hm4
            · obtain ⟨s0, hs0, hmem0⟩ := callCandidates_mem hm3
              exact hc (an, s0) (mapGet_mem hs0) a hmem0
            · unfold refCandidates at hm4
              cases hrl : mapGet st.referencesByName an with
              | none =>
                rw [hrl] at hm4
                simp at hm4
              | some rl =>
                rw [hrl] at hm4
                simp only [List.mem_map] at hm4
                obtain ⟨a2, ha2, heq⟩ := hm4
                obtain rfl := Option.some.inj heq
                rw [hS.frefs] at hrl
                exact hr (an, rl) (mapGet_mem hrl) a2 ha2
          · rw [if_neg hacc] at hm1
            obtain ⟨s0, hs0, hmem0⟩ := callCandidates_mem hm1
            exact hc (an, s0) (mapGet_mem hs0) a hmem0
        · simp only [List.mem_map] at hm2
          obtain ⟨a2, ha2, heq⟩ := hm2
          obtain rfl := Option.some.inj heq
          have := collectMatchingMembers_sound st nf an (memberNodesOf st g) mt hcm a2 ha2
          rw [hgw] at this
          exact this
      · rw [hgw] at hn
        exact hn
    · have hkeep2 : (if st.nodesInAwaitCall.contains a then false
          else scopeChainFind st (st.nodeToScope a) (st.nodeToScope g)) = true := hkeep
      by_cases hain : st.nodesInAwaitCall.contains a = true
      · rw [if_pos hain] at hkeep2
        exact Bool.noConfusion hkeep2
      · rw [← hS.fawait]
        exact Bool.of_not_eq_true hain
    · have hkeep2 : (if st.nodesInAwaitCall.contains a then false
          else scopeChainFind st (st.nodeToScope a) (st.nodeToScope g)) = true := hkeep
      by_cases hain : st.nodesInAwaitCall.contains a = true
      · rw [if_pos hain] at hkeep2
        exact Bool.noConfusion hkeep2
      · rw [if_neg hain] at hkeep2
        rw [scopeChainFind_congr hS.fupper, hS.fscope] at hkeep2
        obtain ⟨sa, sf, hsa, hsf, k, hit⟩ := scopeChainFind_sound st0 _ _ hkeep2
        exact ⟨sa, sf, hsa, hsf, k, hit⟩

theorem contains_true_mem {l : List NodeId} {a : NodeId}
    (h : l.contains a = true) : a ∈ l :=
  List.mem_of_elem_eq_true h

theorem contains_false_not_mem {l : List NodeId} {a : NodeId}
    (h : l.contains a = false) : a ∉ l := by
  intro hm
  have h2 := List.elem_eq_true_of_mem hm
  change List.elem a l = false at h
  rw [h2] at h
  exact Bool.noConfusion h

theorem processAwaitNodes_sched (st : JSDriver) :
    ∀ cands sched, (processAwaitNodes st cands sched).2.2 =
      sched ++ (processAwaitNodes st cands sched).2.1 := by
  intro cands
  induction cands with
  | nil => intro sched; simp [processAwaitNodes]
  | cons c rest ih =>
    intro sched
    unfold processAwaitNodes
    by_cases hig : awaitNodeIgnored st c = true
    · rw [if_pos hig]
      exact ih sched
    · rw [if_neg hig]
      cases hen : awaitNodeEncl st c with
      | none =>
        simp only []
        exact ih sched
      | some na =>
        simp only []
        by_cases hina : st.ignoredNodes.contains na = true
        · rw [if_pos hina]
          exact ih sched
        · rw [if_neg hina]
          by_cases hs : sched.contains na = true
          · rw [if_pos hs]
            exact ih sched
          · rw [if_neg hs]
            rw [ih (sched ++ [na])]
            simp

theorem processAwaitNodes_pushed (st : JSDriver) :
    ∀ cands sched, ∀ p ∈ (processAwaitNodes st cands sched).2.1,
      p ∉ sched ∧ st.ignoredNodes.contains p = false ∧
      ∃ a, some a ∈ cands ∧ st.nodeToEnclosingFunction a = some p := by
  intro cands
  induction cands with
  | nil => intro sched p hp; simp [processAwaitNodes] at hp
  | cons c rest ih =>
    intro sched p hp
    unfold processAwaitNodes at hp
    by_cases hig : awaitNodeIgnored st c = true
    · rw [if_pos hig] at hp
      obtain ⟨h1, h2, a, h3, h4⟩ := ih sched p hp
      exact ⟨h1, h2, a, List.mem_cons_of_mem _ h3, h4⟩
    · rw [if_neg hig] at hp
      cases hen : awaitNodeEncl st c with
      | none =>
        rw [hen] at hp
        simp only [] at hp
        obtain ⟨h1, h2, a, h3, h4⟩ := ih sched p hp
        exact ⟨h1, h2, a, List.mem_cons_of_mem _ h3, h4⟩
      | some na =>
        rw [hen] at hp
        simp only [] at hp
        by_cases hina : st.ignoredNodes.contains na = true
        · rw [if_pos hina] at hp
          obtain ⟨h1, h2, a, h3, h4⟩ := ih sched p hp
          exact ⟨h1, h2, a, List.mem_cons_of_mem _ h3, h4⟩
        · rw [if_neg hina] at hp
          by_cases hs : sched.contains na = true
          · rw [if_pos hs] at hp
            obtain ⟨h1, h2, a, h3, h4⟩ := ih sched p hp
            exact ⟨h1, h2, a, List.mem_cons_of_mem _ h3, h4⟩
          · rw [if_neg hs] at hp
            rcases List.mem_cons.mp hp with rfl | hp2
            · refine ⟨contains_false_not_mem (Bool.eq_false_iff.mpr hs), Bool.eq_false_iff.mpr hina, ?_⟩
              cases c with
              | none => exact absurd hen (by simp [awaitNodeEncl])
              | some a =>
                refine ⟨a, List.mem_cons_self _ _, ?_⟩
                exact hen
            · obtain ⟨h1, h2, a, h3, h4⟩ := ih (sched ++ [na]) p hp2
              refine ⟨fun hm => h1 (List.mem_append_left _ hm), h2,
                a, List.mem_cons_of_mem _ h3, h4⟩

theorem processAwaitNodes_pushed_nodup (st : JSDriver) :
    ∀ cands sched, (processAwaitNodes st cands sched).2.1.Nodup := by
  intro cands
  induction cands with
  | nil => intro sched; simp [processAwaitNodes]
  | cons c rest ih =>
    intro sched
    unfold processAwaitNodes
    by_cases hig : awaitNodeIgnored st c = true
    · rw [if_pos hig]; exact ih sched
    · rw [if_neg hig]
      cases hen : awaitNodeEncl st c with
      | none => simp only []; exact ih sched
      | some na =>
        simp only []
        by_cases hina : st.ignoredNodes.contains na = true
        · rw [if_pos hina]; exact ih sched
        · rw [if_neg hina]
          by_cases hs : sched.contains na = true
          · rw [if_pos hs]; exact ih sched
          · rw [if_neg hs]
            refine List.nodup_cons.mpr ⟨?_, ih (sched ++ [na])⟩
            intro hmem
            obtain ⟨h1, _, _⟩ := processAwaitNodes_pushed st rest (sched ++ [na]) na hmem
            exact h1 (List.mem_append_right _ (List.mem_singleton.mpr rfl))

theorem processAwaitNodes_cons_ignored {st : JSDriver} {c : Option NodeId}
    {rest : List (Option NodeId)} {sched : List NodeId}
    (h : awaitNodeIgnored st c = true) :
    processAwaitNodes st (c :: rest) sched = processAwaitNodes st rest sched := by
  conv_lhs => unfold processAwaitNodes
  rw [if_pos h]

theorem processAwaitNodes_cons_none {st : JSDriver} {c : Option NodeId}
    {rest : List (Option NodeId)} {sched : List NodeId}
    (h : awaitNodeIgnored st c = false) (h2 : awaitNodeEncl st c = none) :
    processAwaitNodes st (c :: rest) sched =
      ({ awaitNode := c, asyncNode := none } :: (processAwaitNodes st rest sched).1,
       (processAwaitNodes st rest sched).2.1,
       (processAwaitNodes st rest sched).2.2) := by
  conv_lhs => unfold processAwaitNodes
  rw [if_neg (by simp [h]), h2]

theorem processAwaitNodes_cons_ignoredNa {st : JSDriver} {c : Option NodeId}
    {rest : List (Option NodeId)} {sched : List NodeId} {na : NodeId}
    (h : awaitNodeIgnored st c = false) (h2 : awaitNodeEncl st c = some na)
    (h3 : st.ignoredNodes.contains na = true) :
    processAwaitNodes st (c :: rest) sched =
      ({ awaitNode := c, asyncNode := none } :: (processAwaitNodes st rest sched).1,
       (processAwaitNodes st rest sched).2.1,
       (processAwaitNodes st rest sched).2.2) := by
  conv_lhs => unfold processAwaitNodes
  rw [if_neg (by simp [h]), h2]
  simp only []
  rw [if_pos h3]

theorem processAwaitNodes_cons_old {st : JSDriver} {c : Option NodeId}
    {rest : List (Option NodeId)} {sched : List NodeId} {na : NodeId}
    (h : awaitNodeIgnored st c = false) (h2 : awaitNodeEncl st c = some na)
    (h3 : st.ignoredNodes.contains na = false) (h4 : sched.contains na = true) :
    processAwaitNodes st (c :: rest) sched =
      ({ awaitNode := c,
         asyncNode := some (if jsAsyncFlag st na then none else some na) } ::
         (processAwaitNodes st rest sched).1,
       (processAwaitNodes st rest sched).2.1,
       (processAwaitNodes st rest sched).2.2) := by
  conv_lhs => unfold processAwaitNodes
  rw [if_neg (by simp [h]), h2]
  simp only []
  rw [if_neg (by rw [h3]; exact Bool.false_ne_true), if_pos h4]

theorem processAwaitNodes_cons_push {st : JSDriver} {c : Option NodeId}
    {rest : List (Option NodeId)} {sched : List NodeId} {na : NodeId}
    (h : awaitNodeIgnored st c = false) (h2 : awaitNodeEncl st c = some na)
    (h3 : st.ignoredNodes.contains na = false) (h4 : sched.contains na = false) :
    processAwaitNodes st (c :: rest) sched =
      ({ awaitNode := c,
         asyncNode := some (if jsAsyncFlag st na then none else some na) } ::
         (processAwaitNodes st rest (sched ++ [na])).1,
       na :: (processAwaitNodes st rest (sched ++ [na])).2.1,
       (processAwaitNodes st rest (sched ++ [na])).2.2) := by
  conv_lhs => unfold processAwaitNodes
  rw [if_neg (by simp [h]), h2]
  simp only []
  rw [if_neg (by rw [h3]; exact Bool.false_ne_true), if_neg (by rw [h4]; exact Bool.false_ne_true)]

theorem processAwaitNodes_edges (st : JSDriver) :
    ∀ cands sched, ∀ e ∈ (processAwaitNodes st cands sched).1,
      e.awaitNode ∈ cands ∧
      (∀ a, e.awaitNode = some a → st.ignoredNodes.contains a = false) ∧
      (∀ p, e.asyncNode = some (some p) → st.ignoredNodes.contains p = false) ∧
      (∀ a p, e.awaitNode = some a → st.nodeToEnclosingFunction a = some p →
        st.ignoredNodes.contains p = false →
        e.asyncNode = some (if jsAsyncFlag st p then none else some p) ∧
        p ∈ (processAwaitNodes st cands sched).2.2) := by
  intro cands
  induction cands with
  | nil => intro sched e he; simp [processAwaitNodes] at he
  | cons c rest ih =>
    intro sched e he
    cases hig : awaitNodeIgnored st c with
    | true =>
      rw [processAwaitNodes_cons_ignored hig] at he ⊢
      obtain ⟨h1, h2, h3, h4⟩ := ih sched e he
      exact ⟨List.mem_cons_of_mem _ h1, h2, h3, h4⟩
    | false =>
      have hawait2 : ∀ a, e.awaitNode = some a → e.awaitNode = c →
          st.ignoredNodes.contains a = false := by
        intro a ha hc
        rw [ha] at hc
        rw [← hc] at hig
        exact hig
      cases hen : awaitNodeEncl st c with
      | none =>
        rw [processAwaitNodes_cons_none hig hen] at he ⊢
        rcases List.mem_cons.mp he with rfl | he2
        · refine ⟨List.mem_cons_self _ _, ?_, ?_, ?_⟩
          · intro a ha
            exact hawait2 a ha rfl
          · intro p hp
            exact absurd hp (by simp)
          · intro a p ha hp hpi
            have hc2 : c = some a := ha
            rw [hc2] at hen
            change st.nodeToEnclosingFunction a = none at hen
            rw [hen] at hp
            exact absurd hp (by simp)
        · obtain ⟨h1, h2, h3, h4⟩ := ih sched e he2
          exact ⟨List.mem_cons_of_mem _ h1, h2, h3, h4⟩
      | some na =>
        cases hina : st.ignoredNodes.contains na with
        | true =>
          rw [processAwaitNodes_cons_ignoredNa hig hen hina] at he ⊢
          rcases List.mem_cons.mp he with rfl | he2
          · refine ⟨List.mem_cons_self _ _, ?_, ?_, ?_⟩
            · intro a ha
              exact hawait2 a ha rfl
            · intro p hp
              exact absurd hp (by simp)
            · intro a p ha hp hpi
              have hc2 : c = some a := ha
              rw [hc2] at hen
              change st.nodeToEnclosingFunction a = some na at hen
              rw [hen] at hp
              obtain rfl : na = p := Option.some.inj hp
              rw [hina] at hpi
              exact Bool.noConfusion hpi
          · obtain ⟨h1, h2, h3, h4⟩ := ih sched e he2
            exact ⟨List.mem_cons_of_mem _ h1, h2, h3, h4⟩
        | false =>
          cases hs : sched.contains na with
          | true =>
            rw [processAwaitNodes_cons_old hig hen hina hs] at he ⊢
            rcases List.mem_cons.mp he with rfl | he2
            · refine ⟨List.mem_cons_self _ _, ?_, ?_, ?_⟩
              · intro a ha
                exact hawait2 a ha rfl
              · intro p hp
                simp only [] at hp
                obtain h5 := Option.some.inj hp
                by_cases hfl : jsAsyncFlag st na = true
                · rw [if_pos hfl] at h5
                  exact Option.noConfusion h5
                · rw [if_neg hfl] at h5
                  obtain rfl : na = p := Option.some.inj h5
                  exact hina
              · intro a p ha hp hpi
                have hc2 : c = some a := ha
                rw [hc2] at hen
                change st.nodeToEnclosingFunction a = some na at hen
                rw [hen] at hp
                obtain rfl : na = p := Option.some.inj hp
                refine ⟨rfl, ?_⟩
                rw [processAwaitNodes_sched st rest sched]
                exact List.mem_append_left _ (contains_true_mem hs)
            · obtain ⟨h1, h2, h3, h4⟩ := ih sched e he2
              exact ⟨List.mem_cons_of_mem _ h1, h2, h3, h4⟩
          | false =>
            rw [processAwaitNodes_cons_push hig hen hina hs] at he ⊢
            rcases List.mem_cons.mp he with rfl | he2
            · refine ⟨List.mem_cons_self _ _, ?_, ?_, ?_⟩
              · intro a ha
                exact hawait2 a ha rfl
              · intro p hp
                simp only [] at hp
                obtain h5 := Option.some.inj hp
                by_cases hfl : jsAsyncFlag st na = true
                · rw [if_pos hfl] at h5
                  exact Option.noConfusion h5
                · rw [if_neg hfl] at h5
                  obtain rfl : na = p := Option.some.inj h5
                  exact hina
              · intro a p ha hp hpi
                have hc2 : c = some a := ha
                rw [hc2] at hen
                change st.nodeToEnclosingFunction a = some na at hen
                rw [hen] at hp
                obtain rfl : na = p := Option.some.inj hp
                refine ⟨rfl, ?_⟩
                rw [processAwaitNodes_sched st rest (sched ++ [na])]
                exact List.mem_append_left _
                  (List.mem_append_right _ (List.mem_singleton.mpr rfl))
            · obtain ⟨h1, h2, h3, h4⟩ := ih (sched ++ [na]) e he2
              exact ⟨List.mem_cons_of_mem _ h1, h2, h3, h4⟩

theorem loop_zero (nf : Nat) (st : JSDriver) (g : NodeId) (rest : List NodeId)
    (sched : List NodeId) (acc : AsyncMap) :
    getAsyncStacksLoop nf st 0 (g :: rest) sched acc = .error .outOfFuel := rfl

theorem loop_ok_inj {x y : AsyncMap × List NodeId × JSDriver}
    (h : (Except.ok x : Except JSError (AsyncMap × List NodeId × JSDriver)) = Except.ok y) :
    x = y := by
  injection h

theorem c2_loop (nf : Nat) (n : NodeId) :
    ∀ fuel st pending sched acc m schedF stF,
      st.ignoredNodes.contains n = true →
      NoIgnoredMention n acc →
      getAsyncStacksLoop nf st fuel pending sched acc = .ok (m, schedF, stF) →
      NoIgnoredMention n m := by
  intro fuel
  induction fuel with
  | zero =>
    intro st pending sched acc m schedF stF hn hacc hrun
    cases pending with
    | nil =>
      rw [loop_nil] at hrun
      have h2 := loop_ok_inj hrun
      simp only [Prod.mk.injEq] at h2
      obtain ⟨rfl, -, -⟩ := h2
      exact hacc
    | cons g rest =>
      rw [loop_zero] at hrun
      exact absurd hrun (by simp)
  | succ fuel ih =>
    intro st pending sched acc m schedF stF hn hacc hrun
    cases pending with
    | nil =>
      rw [loop_nil] at hrun
      have h2 := loop_ok_inj hrun
      simp only [Prod.mk.injEq] at h2
      obtain ⟨rfl, -, -⟩ := h2
      exact hacc
    | cons g rest =>
      cases hgc : st.ignoredNodes.contains g with
      | true =>
        rw [loop_cons_ignored nf st fuel g rest sched acc hgc] at hrun
        exact ih st rest sched acc m schedF stF hn hacc hrun
      | false =>
        cases hga : getAwaitNodes st nf g with
        | error e =>
          rw [loop_cons_error nf st fuel g rest sched acc e hgc hga] at hrun
          exact absurd hrun (by simp)
        | ok pr =>
          obtain ⟨l, st1⟩ := pr
          rw [loop_cons_ok nf st st1 fuel g rest sched acc l hgc hga] at hrun
          have hS1 : SameExceptCalls st st1 := getAwaitNodes_state hga
          have hn1 : st1.ignoredNodes.contains n = true := by
            rw [hS1.fignored]; exact hn
          by_cases hemp : l.isEmpty = true
          · rw [if_pos hemp] at hrun
            exact ih st1 rest sched acc m schedF stF hn1 hacc hrun
          · rw [if_neg hemp] at hrun
            refine ih st1 _ _ _ m schedF stF hn1 ?_ hrun
            intro k edges hk hknone
            rcases List.mem_append.mp hk with hk1 | hk2
            · exact hacc k edges hk1 hknone
            · have hpair : (k, edges) = (some g, (processAwaitNodes st1 l sched).1) :=
                List.mem_singleton.mp hk2
              have hkg : k = some g := congrArg Prod.fst hpair
              have hedges : edges = (processAwaitNodes st1 l sched).1 :=
                congrArg Prod.snd hpair
              constructor
              · rw [hkg]
                intro hgn
                obtain rfl : g = n := Option.some.inj hgn
                rw [hn] at hgc
                exact Bool.noConfusion hgc
              · intro e hee
                rw [hedges] at hee
                obtain ⟨-, h2, h3, -⟩ := processAwaitNodes_edges st1 l sched e hee
                constructor
                · intro heq
                  have h4 := h2 n heq
                  rw [hn1] at h4
                  exact Bool.noConfusion h4
                · intro heq
                  have h4 := h3 n heq
                  rw [hn1] at h4
                  exact Bool.noConfusion h4

/-- Claim C2.  A node n in the IgnoreSet before propagation never appears
as the awaitNode or the asyncNode of any non-root entry of the AsyncMap,
never becomes a key of the map, and when an ignored node reaches the
worklist the loop skips it without invoking getAwaitNodes — the step on an
ignored head literally equals the step on the remaining worklist, leaving
the driver state, scheduled set and map untouched. -/
theorem ignored_nodes_are_dead_ends (st : JSDriver) (nf lf : Nat) (seed n : NodeId)
    (m : AsyncMap) (schedF : List NodeId) (stF : JSDriver)
    (hn : st.ignoredNodes.contains n = true)
    (hrun : getAsyncStacksFull st nf lf seed = .ok (m, schedF, stF)) :
    NoIgnoredMention n m ∧
    (∀ fuel rest sched acc,
      getAsyncStacksLoop nf st (fuel + 1) (n :: rest) sched acc =
        getAsyncStacksLoop nf st fuel rest sched acc) := by
  constructor
  · refine c2_loop nf n lf st [seed] [seed] _ m schedF stF hn ?_ hrun
    intro k edges hk hknone
    have hpair := List.mem_singleton.mp hk
    exact absurd (congrArg Prod.fst hpair) hknone
  · intro fuel rest sched acc
    exact loop_cons_ignored nf st fuel n rest sched acc hn

/-- Witness for C2 at the propagation scenario: node 30 is ignored, the
run succeeds, and the conclusion holds for its map. -/
theorem ignored_nodes_are_dead_ends_witness :
    (propEngine.ignoredNodes.contains 30 = true) ∧
    (getAsyncStacksFull propEngine 5 5 1 = .ok (propMap, [1, 10], propEngine)) ∧
    (NoIgnoredMention 30 propMap ∧
     (∀ fuel rest sched acc,
       getAsyncStacksLoop 5 propEngine (fuel + 1) (30 :: rest) sched acc =
         getAsyncStacksLoop 5 propEngine fuel rest sched acc)) :=
  ⟨by decide, rfl,
   ignored_nodes_are_dead_ends propEngine 5 5 1 30 propMap [1, 10] propEngine
     (by decide) rfl⟩

theorem c4_loop (nf : Nat) (st0 : JSDriver) :
    ∀ fuel st pending sched acc m schedF stF,
      SameExceptCalls st0 st →
      EdgeSchedOK st0 acc sched →
      getAsyncStacksLoop nf st fuel pending sched acc = .ok (m, schedF, stF) →
      EdgeSchedOK st0 m schedF := by
  intro fuel
  induction fuel with
  | zero =>
    intro st pending sched acc m schedF stF hS hacc hrun
    cases pending with
    | nil =>
      rw [loop_nil] at hrun
      have h2 := loop_ok_inj hrun
      simp only [Prod.mk.injEq] at h2
      obtain ⟨rfl, rfl, -⟩ := h2
      exact hacc
    | cons g rest =>
      rw [loop_zero] at hrun
      exact absurd hrun (by simp)
  | succ fuel ih =>
    intro st pending sched acc m schedF stF hS hacc hrun
    cases pending with
    | nil =>
      rw [loop_nil] at hrun
      have h2 := loop_ok_inj hrun
      simp only [Prod.mk.injEq] at h2
      obtain ⟨rfl, rfl, -⟩ := h2
      exact hacc
    | cons g rest =>
      cases hgc : st.ignoredNodes.contains g with
      | true =>
        rw [loop_cons_ignored nf st fuel g rest sched acc hgc] at hrun
        exact ih st rest sched acc m schedF stF hS hacc hrun
      | false =>
        cases hga : getAwaitNodes st nf g with
        | error e =>
          rw [loop_cons_error nf st fuel g rest sched acc e hgc hga] at hrun
          exact absurd hrun (by simp)
        | ok pr =>
          obtain ⟨l, st1⟩ := pr
          rw [loop_cons_ok nf st st1 fuel g rest sched acc l hgc hga] at hrun
          have hS1 : SameExceptCalls st0 st1 :=
            sameExceptCalls_trans hS (getAwaitNodes_state hga)
          by_cases hemp : l.isEmpty = true
          · rw [if_pos hemp] at hrun
            exact ih st1 rest sched acc m schedF stF hS1 hacc hrun
          · rw [if_neg hemp] at hrun
            refine ih st1 _ _ _ m schedF stF hS1 ?_ hrun
            intro g2 edges hk e he a p ha hp hpi
            rcases List.mem_append.mp hk with hk1 | hk2
            · obtain ⟨h1, h2⟩ := hacc g2 edges hk1 e he a p ha hp hpi
              refine ⟨h1, ?_⟩
              rw [processAwaitNodes_sched st1 l sched]
              exact List.mem_append_left _ h2
            · have hpair : ((some g2 : Option NodeId), edges) =
                  (some g, (processAwaitNodes st1 l sched).1) :=
                List.mem_singleton.mp hk2
              have hedges : edges = (processAwaitNodes st1 l sched).1 :=
                congrArg Prod.snd hpair
              rw [hedges] at he
              obtain ⟨-, -, -, h4⟩ := processAwaitNodes_edges st1 l sched e he
              have hp1 : st1.nodeToEnclosingFunction a = some p := by
                rw [hS1.fencl]; exact hp
              have hpi1 : st1.ignoredNodes.contains p = false := by
                rw [hS1.fignored]; exact hpi
              obtain ⟨h5, h6⟩ := h4 a p ha hp1 hpi1
              refine ⟨?_, h6⟩
              rw [h5, jsAsyncFlag_congr hS1]

/-- Claim C4.  For every edge of the AsyncMap whose await site has an
enclosing function p that is not ignored: the asyncNode of the edge is null
(some none) exactly when p already carries the async keyword in source,
and is p itself otherwise; and in both cases p ends up in the scheduled
set of the run. -/
theorem edge_asyncNode_and_scheduling (st : JSDriver) (nf lf : Nat) (seed : NodeId)
    (m : AsyncMap) (schedF : List NodeId) (stF : JSDriver)
    (hrun : getAsyncStacksFull st nf lf seed = .ok (m, schedF, stF)) :
    EdgeSchedOK st m schedF := by
  refine c4_loop nf st lf st [seed] [seed] _ m schedF stF (sameExceptCalls_refl st) ?_ hrun
  intro g2 edges hk
  have hpair := List.mem_singleton.mp hk
  exact absurd (congrArg Prod.fst hpair) (by simp)

/-- Witness for C4 at the propagation scenario: the edge for call node 3
records its enclosing, not-yet-async function 10 and 10 is scheduled. -/
theorem edge_asyncNode_and_scheduling_witness :
    (getAsyncStacksFull propEngine 5 5 1 = .ok (propMap, [1, 10], propEngine)) ∧
    EdgeSchedOK propEngine propMap [1, 10] :=
  ⟨rfl, edge_asyncNode_and_scheduling propEngine 5 5 1 propMap [1, 10] propEngine rfl⟩

theorem getNodeNameList_ne_outOfFuel {f : NodeId → Except JSError String}
    (hf : ∀ n, f n ≠ .error .outOfFuel) :
    ∀ l, getNodeNameList f l ≠ .error .outOfFuel := by
  intro l
  induction l with
  | nil => simp [getNodeNameList]
  | cons n rest ih =>
    unfold getNodeNameList
    split
    · rename_i e heq
      intro hcontra
      injection hcontra with h2
      rw [h2] at heq
      exact hf n heq
    · split
      · rename_i e heq
        intro hcontra
        injection hcontra with h2
        rw [h2] at heq
        exact ih heq
      · simp

theorem getNodeName_ne_outOfFuel (st : JSDriver) :
    ∀ fuel n, getNodeName st fuel n ≠ .error .outOfFuel := by
  intro fuel
  induction fuel with
  | zero => intro n; simp [getNodeName]
  | succ fuel ih =>
    intro n
    unfold getNodeName
    split
    · exact ih _
    · split
      · simp
      · split
        · split
          · exact ih _
          · simp
        · split <;>
            first
              | (exact ih _)
              | (solve | simp)
              | (split <;>
                  first
                    | (exact ih _)
                    | (rename_i e heq
                       intro hcontra
                       injection hcontra with h2
                       rw [h2] at heq
                       exact getNodeNameList_ne_outOfFuel (fun m => ih m) _ heq)
                    | (solve | simp))

theorem collectMatchingMembers_ne_outOfFuel (st : JSDriver) (nf : Nat) (an : String) :
    ∀ l, collectMatchingMembers st nf an l ≠ .error .outOfFuel := by
  intro l
  induction l with
  | nil => simp [collectMatchingMembers]
  | cons n rest ih =>
    unfold collectMatchingMembers
    split
    · rename_i e heq
      intro hcontra
      injection hcontra with h2
      rw [h2] at heq
      exact getNodeName_ne_outOfFuel st nf n heq
    · split
      · rename_i e heq
        intro hcontra
        injection hcontra with h2
        rw [h2] at heq
        exact ih heq
      · split <;> simp

theorem getAwaitNodes_ne_outOfFuel (st : JSDriver) (nf : Nat) (g : NodeId) :
    getAwaitNodes st nf g ≠ .error .outOfFuel := by
  unfold getAwaitNodes
  split
  · rename_i e heq
    intro hcontra
    injection hcontra with h2
    rw [h2] at heq
    exact getNodeName_ne_outOfFuel st nf g heq
  · split
    · rename_i e heq
      intro hcontra
      injection hcontra with h2
      rw [h2] at heq
      exact collectMatchingMembers_ne_outOfFuel st nf _ _ heq
    · simp

theorem nodup_subset_length_le {sched funcs : List NodeId}
    (hnd : sched.Nodup) (hsub : sched ⊆ funcs) : sched.length ≤ funcs.length := by
  calc sched.length = sched.toFinset.card := (List.toFinset_card_of_nodup hnd).symm
    _ ≤ funcs.toFinset.card := Finset.card_le_card (fun x hx =>
        List.mem_toFinset.mpr (hsub (List.mem_toFinset.mp hx)))
    _ ≤ funcs.length := funcs.toFinset_card_le

theorem c9_loop (nf : Nat) (st0 : JSDriver) (funcs : List NodeId)
    (hrange : ∀ a p, st0.nodeToEnclosingFunction a = some p → p ∈ funcs) :
    ∀ fuel st pending sched acc,
      SameExceptCalls st0 st →
      sched.Nodup → sched ⊆ funcs →
      funcs.length + pending.length ≤ fuel + sched.length →
      getAsyncStacksLoop nf st fuel pending sched acc ≠ .error .outOfFuel ∧
      (∀ m schedF stF,
        getAsyncStacksLoop nf st fuel pending sched acc = .ok (m, schedF, stF) →
        schedF.Nodup) := by
  intro fuel
  induction fuel with
  | zero =>
    intro st pending sched acc hS hnd hsub hlen
    cases pending with
    | nil =>
      constructor
      · rw [loop_nil]
        simp
      · intro m schedF stF hrun
        rw [loop_nil] at hrun
        have h2 := loop_ok_inj hrun
        simp only [Prod.mk.injEq] at h2
        obtain ⟨-, rfl, -⟩ := h2
        exact hnd
    | cons g rest =>
      exfalso
      have hle := nodup_subset_length_le hnd hsub
      simp only [List.length_cons] at hlen
      omega
  | succ fuel ih =>
    intro st pending sched acc hS hnd hsub hlen
    cases pending with
    | nil =>
      constructor
      · rw [loop_nil]
        simp
      · intro m schedF stF hrun
        rw [loop_nil] at hrun
        have h2 := loop_ok_inj hrun
        simp only [Prod.mk.injEq] at h2
        obtain ⟨-, rfl, -⟩ := h2
        exact hnd
    | cons g rest =>
      cases hgc : st.ignoredNodes.contains g with
      | true =>
        rw [loop_cons_ignored nf st fuel g rest sched acc hgc]
        refine ih st rest sched acc hS hnd hsub ?_
        simp only [List.length_cons] at hlen
        omega
      | false =>
        cases hga : getAwaitNodes st nf g with
        | error e =>
          rw [loop_cons_error nf st fuel g rest sched acc e hgc hga]
          constructor
          · intro hcontra
            injection hcontra with h2
            rw [h2] at hga
            exact getAwaitNodes_ne_outOfFuel st nf g hga
          · intro m schedF stF hrun
            exact absurd hrun (by simp)
        | ok pr =>
          obtain ⟨l, st1⟩ := pr
          rw [loop_cons_ok nf st st1 fuel g rest sched acc l hgc hga]
          have hS1 : SameExceptCalls st0 st1 :=
            sameExceptCalls_trans hS (getAwaitNodes_state hga)
          by_cases hemp : l.isEmpty = true
          · rw [if_pos hemp]
            refine ih st1 rest sched acc hS1 hnd hsub ?_
            simp only [List.length_cons] at hlen
            omega
          · rw [if_neg hemp]
            have hsched := processAwaitNodes_sched st1 l sched
            have hpushed := processAwaitNodes_pushed st1 l sched
            have hpnd := processAwaitNodes_pushed_nodup st1 l sched
            have hnd2 : (processAwaitNodes st1 l sched).2.2.Nodup := by
              rw [hsched]
              refine List.Nodup.append hnd hpnd ?_
              intro x hx1 hx2
              exact (hpushed x hx2).1 hx1
            have hsub2 : (processAwaitNodes st1 l sched).2.2 ⊆ funcs := by
              rw [hsched]
              intro x hx
              rcases List.mem_append.mp hx with h | h
              · exact hsub h
              · obtain ⟨-, -, a, -, henc⟩ := hpushed x h
                rw [hS1.fencl] at henc
                exact hrange a x henc
            refine ih st1 _ _ _ hS1 hnd2 hsub2 ?_
            rw [hsched]
            simp only [List.length_cons, List.length_append] at hlen ⊢
            omega

/-- Claim C9.  The worklist terminates: the scheduled set admits each
function node at most once, so with the total number of function nodes as
iteration budget the loop never exhausts its fuel (every failure it can
return comes from name resolution, never from the budget), and on success
the scheduled list — the list of all nodes ever appended to the
worklist — is duplicate-free. -/
theorem worklist_terminates (st : JSDriver) (nf : Nat) (seed : NodeId)
    (funcs : List NodeId)
    (hseed : seed ∈ funcs)
    (hrange : ∀ a p, st.nodeToEnclosingFunction a = some p → p ∈ funcs) :
    getAsyncStacksFull st nf funcs.length seed ≠ .error .outOfFuel ∧
    (∀ m schedF stF,
      getAsyncStacksFull st nf funcs.length seed = .ok (m, schedF, stF) →
      schedF.Nodup) := by
  refine c9_loop nf st funcs hrange funcs.length st [seed] [seed] _
    (sameExceptCalls_refl st) (List.nodup_singleton seed) ?_ ?_
  · intro x hx
    rw [List.mem_singleton] at hx
    rw [hx]
    exact hseed
  · simp

/-- Witness for C9 at the propagation scenario with funcs = [1, 10]. -/
theorem worklist_terminates_witness :
    ((1 : NodeId) ∈ [1, 10]) ∧
    (∀ a p, propEngine.nodeToEnclosingFunction a = some p → p ∈ [1, 10]) ∧
    (getAsyncStacksFull propEngine 5 ([1, 10] : List NodeId).length 1 ≠
      .error .outOfFuel ∧
     (∀ m schedF stF,
       getAsyncStacksFull propEngine 5 ([1, 10] : List NodeId).length 1 =
         .ok (m, schedF, stF) → schedF.Nodup)) := by
  have hrange : ∀ a p, propEngine.nodeToEnclosingFunction a = some p → p ∈ [1, 10] := by
    intro a p h
    simp only [propEngine] at h
    split at h
    · obtain rfl : (10 : NodeId) = p := Option.some.inj h
      decide
    · exact absurd h (by simp)
  exact ⟨by decide, hrange, worklist_terminates propEngine 5 1 [1, 10] (by decide) hrange⟩

theorem c3_loop (nf : Nat) (st0 : JSDriver)
    (hr : NamesInv st0 nf st0.referencesByName) :
    ∀ fuel st pending sched acc m schedF stF,
      SameExceptCalls st0 st →
      NamesInv st0 nf st.callsByName →
      GoodEdges st0 nf acc →
      getAsyncStacksLoop nf st fuel pending sched acc = .ok (m, schedF, stF) →
      GoodEdges st0 nf m := by
  intro fuel
  induction fuel with
  | zero =>
    intro st pending sched acc m schedF stF hS hc hacc hrun
    cases pending with
    | nil =>
      rw [loop_nil] at hrun
      have h2 := loop_ok_inj hrun
      simp only [Prod.mk.injEq] at h2
      obtain ⟨rfl, -, -⟩ := h2
      exact hacc
    | cons g rest =>
      rw [loop_zero] at hrun
      exact absurd hrun (by simp)
  | succ fuel ih =>
    intro st pending sched acc m schedF stF hS hc hacc hrun
    cases pending with
    | nil =>
      rw [loop_nil] at hrun
      have h2 := loop_ok_inj hrun
      simp only [Prod.mk.injEq] at h2
      obtain ⟨rfl, -, -⟩ := h2
      exact hacc
    | cons g rest =>
      cases hgc : st.ignoredNodes.contains g with
      | true =>
        rw [loop_cons_ignored nf st fuel g rest sched acc hgc] at hrun
        exact ih st rest sched acc m schedF stF hS hc hacc hrun
      | false =>
        cases hga : getAwaitNodes st nf g with
        | error e =>
          rw [loop_cons_error nf st fuel g rest sched acc e hgc hga] at hrun
          exact absurd hrun (by simp)
        | ok pr =>
          obtain ⟨l, st1⟩ := pr
          rw [loop_cons_ok nf st st1 fuel g rest sched acc l hgc hga] at hrun
          have hS1 : SameExceptCalls st0 st1 :=
            sameExceptCalls_trans hS (getAwaitNodes_state hga)
          have hc1 : NamesInv st0 nf st1.callsByName :=
            getAwaitNodes_preserves_names hS hc hga
          by_cases hemp : l.isEmpty = true
          · rw [if_pos hemp] at hrun
            exact ih st1 rest sched acc m schedF stF hS1 hc1 hacc hrun
          · rw [if_neg hemp] at hrun
            refine ih st1 _ _ _ m schedF stF hS1 hc1 ?_ hrun
            intro f edges hk e he
            rcases List.mem_append.mp hk with hk1 | hk2
            · exact hacc f edges hk1 e he
            · have hpair : ((some f : Option NodeId), edges) =
                  (some g, (processAwaitNodes st1 l sched).1) :=
                List.mem_singleton.mp hk2
              obtain rfl : f = g := Option.some.inj (congrArg Prod.fst hpair)
              have hedges : edges = (processAwaitNodes st1 l sched).1 :=
                congrArg Prod.snd hpair
              rw [hedges] at he
              obtain ⟨h1, -, -, -⟩ := processAwaitNodes_edges st1 l sched e he
              exact getAwaitNodes_sound hS hc hr hga e.awaitNode h1

/-- Claim C3.  Under the indexing invariant — every node stored in
callsByName or referencesByName under a key has that key as its name —
every edge of every non-root entry f of the AsyncMap has a present
awaitNode whose name equals the name of f (this also covers the
constructor-member candidates, which are admitted only on a name match),
which is not in the in-await set, and whose scope has the scope of f as a
reflexive ancestor along the scope-parent chain. -/
theorem edges_respect_name_scope_await (st : JSDriver) (nf lf : Nat) (seed : NodeId)
    (m : AsyncMap) (schedF : List NodeId) (stF : JSDriver)
    (hc : NamesInv st nf st.callsByName)
    (hr : NamesInv st nf st.referencesByName)
    (hrun : getAsyncStacksFull st nf lf seed = .ok (m, schedF, stF)) :
    GoodEdges st nf m := by
  refine c3_loop nf st hr lf st [seed] [seed] _ m schedF stF
    (sameExceptCalls_refl st) hc ?_ hrun
  intro f edges hk
  have hpair := List.mem_singleton.mp hk
  exact absurd (congrArg Prod.fst hpair) (by simp)

/-- Witness for C3 at the propagation scenario. -/
theorem edges_respect_name_scope_await_witness :
    NamesInv propEngine 5 propEngine.callsByName ∧
    NamesInv propEngine 5 propEngine.referencesByName ∧
    (getAsyncStacksFull propEngine 5 5 1 = .ok (propMap, [1, 10], propEngine)) ∧
    GoodEdges propEngine 5 propMap := by
  refine ⟨?_, ?_, rfl, ?_⟩
  · unfold NamesInv
    decide
  · unfold NamesInv
    decide
  · exact edges_respect_name_scope_await propEngine 5 5 1 propMap [1, 10] propEngine
      (by unfold NamesInv; decide) (by unfold NamesInv; decide) rfl
